import Mathlib

/-!
Verification development for the QM9 data-preparation notebook
(`notebooks/qm9_data_prep.ipynb`).

The notebook's pure logic is embedded shallowly:

* strings are `List Char`; Python `str.split()` / `str.split('*^')` and the
  decimal grammar of `float()` / `int()` are modelled as executable functions;
* Python floats are modelled by exact rationals (`ℚ`): the numeric fields of
  the claims involve only exactly representable decimal arithmetic;
* exceptions are modelled with `Except`; the error names follow the
  specification's classification (`MalformedRecordError` and friends);
* the RDKit molecule object is modelled by the data the notebook reads from
  it: the list of symmetrized-SSSR rings and the list of bonds.
-/

/-! ## String utilities (Python `str.split`, `int`, `float`) -/

/-- Accumulator-based scanner behind `splitWS`: `acc` is the reversed
current word. -/
def splitWSAux : List Char → List Char → List (List Char)
  | acc, [] => if acc = [] then [] else [acc.reverse]
  | acc, c :: cs =>
    if c.isWhitespace then
      if acc = [] then splitWSAux [] cs else acc.reverse :: splitWSAux [] cs
    else splitWSAux (c :: acc) cs

/-- Python `str.split()` with no argument: split on runs of whitespace,
discarding empty fields. -/
def splitWS (l : List Char) : List (List Char) := splitWSAux [] l

/-- Python `s.split('*^')`: split on every occurrence of the two-character
separator `*^`, keeping empty fields. -/
def splitSH : List Char → List (List Char)
  | [] => [[]]
  | '*' :: '^' :: rest => [] :: splitSH rest
  | c :: rest =>
    match splitSH rest with
    | [] => [[c]]
    | w :: ws => (c :: w) :: ws

/-- Numeric value of a list of decimal digit characters, most significant
first. -/
def digitsVal (ds : List Char) : ℕ :=
  ds.foldl (fun acc d => 10 * acc + (d.toNat - 48)) 0

/-- Strip leading and trailing whitespace (Python `str.strip()`). -/
def stripWS (l : List Char) : List Char :=
  ((l.dropWhile (fun c => c.isWhitespace)).reverse.dropWhile
    (fun c => c.isWhitespace)).reverse

/-- Optional leading sign; returns the sign factor and the remainder. -/
def parseSign : List Char → ℤ × List Char
  | '+' :: rest => (1, rest)
  | '-' :: rest => (-1, rest)
  | l => (1, l)

/-- Python `int(s)` on a decimal literal: optional surrounding whitespace,
optional sign, one or more digits.  `none` models `ValueError`. -/
def parseIntStrip (s : List Char) : Option ℤ :=
  let t := stripWS s
  let (sgn, t1) := parseSign t
  let ds := t1.takeWhile Char.isDigit
  let rest := t1.dropWhile Char.isDigit
  if ds = [] ∨ rest ≠ [] then none
  else some (sgn * (digitsVal ds : ℤ))

/-- Python `float(s)` on a decimal literal
`[sign] (digits [. digits] | . digits) [(e|E) [sign] digits]`, evaluated
exactly over `ℚ`.  `none` models `ValueError`. -/
def parseFloat? (s : List Char) : Option ℚ :=
  let t := stripWS s
  let (sgn, t1) := parseSign t
  let ip := t1.takeWhile Char.isDigit
  let t2 := t1.dropWhile Char.isDigit
  let (fp, t3) :=
    match t2 with
    | '.' :: rest => (rest.takeWhile Char.isDigit, rest.dropWhile Char.isDigit)
    | _ => ([], t2)
  if ip = [] ∧ fp = [] then none
  else
    let mant : ℚ := (sgn : ℚ) * ((digitsVal ip : ℚ) +
      (digitsVal fp : ℚ) / (10 : ℚ) ^ fp.length)
    match t3 with
    | [] => some mant
    | e :: rest =>
      if e = 'e' ∨ e = 'E' then
        let (esgn, r1) := parseSign rest
        let ed := r1.takeWhile Char.isDigit
        let r2 := r1.dropWhile Char.isDigit
        if ed = [] ∨ r2 ≠ [] then none
        else some (mant * (10 : ℚ) ^ (esgn * (digitsVal ed : ℤ)))
      else none

/-! ## `parse_float`: the tolerant float parser of the notebook

```python
def parse_float(s):
    try:
        return float(s)
    except ValueError:
        base, power = s.split('*^')
        return float(base) * 10**float(power)
```

The two-element unpacking raises `ValueError` unless the split yields exactly
two parts; a non-integral exponent lies outside the exactly-representable
model and is mapped to `none`. -/
def parse_float (s : List Char) : Option ℚ :=
  match parseFloat? s with
  | some v => some v
  | none =>
    match splitSH s with
    | [base, power] =>
      match parseFloat? base, parseFloat? power with
      | some b, some p => if p.den = 1 then some (b * (10 : ℚ) ^ p.num) else none
      | _, _ => none
    | _ => none

/-- C5: the tolerant float parser first attempts standard float parsing and
only on failure falls back to splitting on the `*^` marker; in particular
`parse_float "1.23*^-4" = 1.23e-4` and `parse_float "5.0" = 5.0` (numeric
semantics evaluated exactly over `ℚ`). -/
theorem parse_float_spec :
    (∀ s v, parseFloat? s = some v → parse_float s = some v) ∧
    parse_float ("1.23*^-4".toList) = some (123 / 1000000) ∧
    parse_float ("5.0".toList) = some 5 := by
  refine ⟨fun s v h => ?_, ?_, ?_⟩
  · rw [parse_float, h]
  · have hp : parseFloat? ("-4".toList) = some (-4) := by
      have h : parseFloat? ("-4".toList) =
          some (((-1 : ℤ) : ℚ) * (((4 : ℕ) : ℚ) + ((0 : ℕ) : ℚ) / (10 : ℚ) ^ (0 : ℕ))) := rfl
      rw [h]; norm_num
    have hb : parseFloat? ("1.23".toList) =
        some (((1 : ℤ) : ℚ) * (((1 : ℕ) : ℚ) + ((23 : ℕ) : ℚ) / (10 : ℚ) ^ (2 : ℕ))) := rfl
    have hnone : parseFloat? ("1.23*^-4".toList) = none := rfl
    have hsplit : splitSH ("1.23*^-4".toList) = ["1.23".toList, "-4".toList] := rfl
    rw [parse_float, hnone, hsplit]
    simp only [hb, hp]
    norm_num
  · have h : parse_float ("5.0".toList) =
        some (((1 : ℤ) : ℚ) * (((5 : ℕ) : ℚ) + ((0 : ℕ) : ℚ) / (10 : ℚ) ^ (1 : ℕ))) := rfl
    rw [h]; norm_num

/-- Witness for C5: the standard-parse branch at a concrete input. -/
theorem parse_float_spec_witness :
    parse_float ("7".toList) =
      some (((1 : ℤ) : ℚ) * (((7 : ℕ) : ℚ) + ((0 : ℕ) : ℚ) / (10 : ℚ) ^ (0 : ℕ))) :=
  parse_float_spec.1 _ _ rfl

/-! ## The SMILES tokenizer

```python
def smi_tokenizer(smi):
    pattern = "(\[[^\]]+]|Br?|Cl?|N|O|S|P|F|I|b|c|n|o|s|p|\(|\)|\.|=|#|-|\+|\\\\|\/|:|~|@|\?|>|\*|\$|\%[0-9]{2}|[0-9])"
    regex = re.compile(pattern)
    tokens = [token for token in regex.findall(smi)]
    assert smi == ''.join(tokens)
    return tokens
```

`re.findall` scans left to right, at each position trying the alternatives in
order (the bracket-atom alternative is greedy up to the first `]`), emits the
match, and skips a character on which no alternative matches.  The failed
assertion is the spec's `TokenizationError`. -/

/-- The single-character alternatives of the tokenizer pattern, in order. -/
def singleChars : List Char :=
  ['N', 'O', 'S', 'P', 'F', 'I', 'b', 'c', 'n', 'o', 's', 'p', '(', ')', '.',
   '=', '#', '-', '+', '\\', '/', ':', '~', '@', '?', '>', '*', '$']

/-- Attempt to match one alternative of the tokenizer pattern at a position:
`c` is the character at the position, `cs` the remainder.  `some k` means the
match covers `c` plus the first `k` characters of `cs`; `none` means no
alternative matches (the scanner skips `c`). -/
def matchLen (c : Char) (cs : List Char) : Option ℕ :=
  if c = '[' then
    let mid := cs.takeWhile (fun x => x ≠ ']')
    if mid ≠ [] ∧ mid.length < cs.length then some (mid.length + 1) else none
  else if c = 'B' then
    match cs with
    | c2 :: _ => if c2 = 'r' then some 1 else some 0
    | [] => some 0
  else if c = 'C' then
    match cs with
    | c2 :: _ => if c2 = 'l' then some 1 else some 0
    | [] => some 0
  else if c ∈ singleChars then some 0
  else if c = '%' then
    match cs with
    | a :: b :: _ => if a.isDigit ∧ b.isDigit then some 2 else none
    | _ => none
  else if c.isDigit then some 0
  else none

/-- Model of `regex.findall`: the list of non-overlapping matches, scanning left to
right and skipping unmatched characters. -/
def findall : List Char → List (List Char)
  | [] => []
  | c :: cs =>
    match matchLen c cs with
    | some k => (c :: cs.take k) :: findall (cs.drop k)
    | none => findall cs
termination_by l => l.length
decreasing_by
  · simp only [List.length_cons, List.length_drop]
    omega
  · simp

/-- The spec's `TokenizationError`: the round-trip assertion in
`smi_tokenizer` failed. -/
inductive TokenizationError where
  | roundTripFailed
deriving DecidableEq

/-- The tokenizer `smi_tokenizer`: run `findall`, then assert that concatenating the tokens
reconstructs the input. -/
def smi_tokenizer (smi : List Char) : Except TokenizationError (List (List Char)) :=
  let tokens := findall smi
  if tokens.flatten = smi then .ok tokens else .error .roundTripFailed

/-- One token of the supported SMILES grammar: exactly the strings matched in
full by one alternative of the tokenizer pattern (bracketed atoms, halogens,
organic-subset atoms, bond symbols, branch parentheses, stereo/charge symbols,
two-digit ring-closure percent escapes, ring-closure digits). -/
inductive SmiToken : List Char → Prop where
  | bracket (mid : List Char) (hne : mid ≠ []) (hmid : ∀ x ∈ mid, x ≠ ']') :
      SmiToken ('[' :: (mid ++ [']']))
  | brTok : SmiToken ['B', 'r']
  | bTok : SmiToken ['B']
  | clTok : SmiToken ['C', 'l']
  | cTok : SmiToken ['C']
  | singleTok (c : Char) (h : c ∈ singleChars) : SmiToken [c]
  | pctTok (a b : Char) (ha : a.isDigit = true) (hb : b.isDigit = true) :
      SmiToken ['%', a, b]
  | digitTok (c : Char) (h : c.isDigit = true) : SmiToken [c]

/-- A string over the supported grammar: a concatenation of tokens. -/
inductive SmiGrammar : List Char → Prop where
  | nil : SmiGrammar []
  | cons (t r : List Char) : SmiToken t → SmiGrammar r → SmiGrammar (t ++ r)

theorem singleChars_facts :
    ∀ c ∈ singleChars,
      c ≠ '[' ∧ c ≠ 'B' ∧ c ≠ 'C' ∧ c ≠ 'r' ∧ c ≠ 'l' ∧ c.isDigit = false := by
  decide

theorem smiToken_ne_nil {t : List Char} (h : SmiToken t) : t ≠ [] := by
  cases h <;> simp

/-- No token of the grammar begins with `r` or with `l`: those letters occur
only as the second character of `Br` / `Cl` or inside a bracket atom. -/
theorem smiToken_head_not_rl {t : List Char} (h : SmiToken t) :
    ∀ c cs, t = c :: cs → c ≠ 'r' ∧ c ≠ 'l' := by
  cases h with
  | bracket mid hne hmid =>
    intro c cs he
    injection he with h1 _
    rw [← h1]
    exact ⟨by decide, by decide⟩
  | brTok => intro c cs he; injection he with h1 _; rw [← h1]; exact ⟨by decide, by decide⟩
  | bTok => intro c cs he; injection he with h1 _; rw [← h1]; exact ⟨by decide, by decide⟩
  | clTok => intro c cs he; injection he with h1 _; rw [← h1]; exact ⟨by decide, by decide⟩
  | cTok => intro c cs he; injection he with h1 _; rw [← h1]; exact ⟨by decide, by decide⟩
  | singleTok c2 h2 =>
    intro c cs he
    injection he with h1 _
    rw [← h1]
    obtain ⟨-, -, -, h4, h5, -⟩ := singleChars_facts c2 h2
    exact ⟨h4, h5⟩
  | pctTok a b ha hb =>
    intro c cs he; injection he with h1 _; rw [← h1]; exact ⟨by decide, by decide⟩
  | digitTok c2 h2 =>
    intro c cs he
    injection he with h1 _
    rw [← h1]
    constructor
    · intro e; rw [e] at h2; exact absurd h2 (by decide)
    · intro e; rw [e] at h2; exact absurd h2 (by decide)

theorem grammar_head_not_rl {r : List Char} (h : SmiGrammar r) :
    ∀ c cs, r = c :: cs → c ≠ 'r' ∧ c ≠ 'l' := by
  cases h with
  | nil => intro c cs he; cases he
  | cons t r2 ht hr2 =>
    intro c cs he
    cases t with
    | nil => exact absurd rfl (smiToken_ne_nil ht)
    | cons t0 ts =>
      rw [List.cons_append] at he
      injection he with h1 _
      rw [← h1]
      exact smiToken_head_not_rl ht t0 ts rfl

theorem matchLen_bracket (mid r : List Char) (hne : mid ≠ [])
    (hmid : ∀ x ∈ mid, x ≠ ']') :
    matchLen '[' (mid ++ ']' :: r) = some (mid.length + 1) := by
  have htw : (mid ++ ']' :: r).takeWhile (fun x => x ≠ ']') = mid := by
    rw [List.takeWhile_append_of_pos (by simpa using hmid)]
    simp
  have hlen : mid.length < (mid ++ ']' :: r).length := by
    simp [List.length_append]
  simp only [matchLen, if_pos rfl, htw]
  have hcond : mid ≠ [] ∧ mid.length < (mid ++ ']' :: r).length := ⟨hne, hlen⟩
  exact if_pos hcond

theorem matchLen_B_r (cs : List Char) : matchLen 'B' ('r' :: cs) = some 1 := by
  simp [matchLen]

theorem matchLen_B (cs : List Char) (h : ∀ c cs2, cs = c :: cs2 → c ≠ 'r') :
    matchLen 'B' cs = some 0 := by
  cases cs with
  | nil => simp [matchLen]
  | cons c cs2 => simp [matchLen, h c cs2 rfl]

theorem matchLen_C_l (cs : List Char) : matchLen 'C' ('l' :: cs) = some 1 := by
  simp [matchLen]

theorem matchLen_C (cs : List Char) (h : ∀ c cs2, cs = c :: cs2 → c ≠ 'l') :
    matchLen 'C' cs = some 0 := by
  cases cs with
  | nil => simp [matchLen]
  | cons c cs2 => simp [matchLen, h c cs2 rfl]

theorem matchLen_single {c : Char} (h : c ∈ singleChars) (cs : List Char) :
    matchLen c cs = some 0 := by
  obtain ⟨h1, h2, h3, -, -, -⟩ := singleChars_facts c h
  simp [matchLen, h1, h2, h3, h]

theorem matchLen_pct {a b : Char} (ha : a.isDigit = true) (hb : b.isDigit = true)
    (cs : List Char) : matchLen '%' (a :: b :: cs) = some 2 := by
  have hns : '%' ∉ singleChars := by decide
  simp [matchLen, ha, hb, hns]

theorem matchLen_digit {c : Char} (h : c.isDigit = true) (cs : List Char) :
    matchLen c cs = some 0 := by
  have h1 : c ≠ '[' := by intro e; rw [e] at h; exact absurd h (by decide)
  have h2 : c ≠ 'B' := by intro e; rw [e] at h; exact absurd h (by decide)
  have h3 : c ≠ 'C' := by intro e; rw [e] at h; exact absurd h (by decide)
  have h4 : c ∉ singleChars := by
    intro hmem
    obtain ⟨-, -, -, -, -, h6⟩ := singleChars_facts c hmem
    rw [h6] at h; cases h
  have h5 : c ≠ '%' := by intro e; rw [e] at h; exact absurd h (by decide)
  simp [matchLen, h1, h2, h3, h4, h5, h]

/-- At the head of `token ++ rest`, with `rest` again over the grammar, the
scanner matches a chunk that together with the head character covers
exactly the token. -/
theorem matchLen_token {t r : List Char} (ht : SmiToken t) (hr : SmiGrammar r) :
    ∃ c cs k, t ++ r = c :: cs ∧ matchLen c cs = some k ∧
      c :: cs.take k = t ∧ cs.drop k = r := by
  cases ht with
  | bracket mid hne hmid =>
    refine ⟨'[', mid ++ ']' :: r, mid.length + 1, by simp,
      matchLen_bracket mid r hne hmid, ?_, ?_⟩
    · rw [List.append_cons mid ']' r, List.take_left' (by simp)]
    · rw [List.append_cons mid ']' r, List.drop_left' (by simp)]
  | brTok => exact ⟨'B', 'r' :: r, 1, rfl, matchLen_B_r r, rfl, rfl⟩
  | bTok =>
    refine ⟨'B', r, 0, rfl, matchLen_B r ?_, rfl, rfl⟩
    intro c cs2 he
    exact (grammar_head_not_rl hr c cs2 he).1
  | clTok => exact ⟨'C', 'l' :: r, 1, rfl, matchLen_C_l r, rfl, rfl⟩
  | cTok =>
    refine ⟨'C', r, 0, rfl, matchLen_C r ?_, rfl, rfl⟩
    intro c cs2 he
    exact (grammar_head_not_rl hr c cs2 he).2
  | singleTok c h => exact ⟨c, r, 0, rfl, matchLen_single h r, rfl, rfl⟩
  | pctTok a b ha hb =>
    exact ⟨'%', a :: b :: r, 2, rfl, matchLen_pct ha hb r, rfl, rfl⟩
  | digitTok c h => exact ⟨c, r, 0, rfl, matchLen_digit h r, rfl, rfl⟩

theorem findall_cons {c : Char} {cs : List Char} {k : ℕ}
    (h : matchLen c cs = some k) :
    findall (c :: cs) = (c :: cs.take k) :: findall (cs.drop k) := by
  rw [findall, h]

/-- Round trip over the grammar: scanning a concatenation of tokens consumes
every character, so flattening the matches reproduces the input. -/
theorem findall_flatten : ∀ n (s : List Char), s.length ≤ n → SmiGrammar s →
    (findall s).flatten = s := by
  intro n
  induction n with
  | zero =>
    intro s hl _
    have : s = [] := List.length_eq_zero.mp (Nat.le_zero.mp hl)
    subst this
    simp [findall]
  | succ n ih =>
    intro s hl hg
    cases hg with
    | nil => simp [findall]
    | cons t r ht hr =>
      obtain ⟨c, cs, k, he, hm, htok, hdrop⟩ := matchLen_token ht hr
      have hrlen : r.length ≤ n := by
        have h4 : 0 < t.length := List.length_pos.mpr (smiToken_ne_nil ht)
        have h5 : t.length + r.length ≤ n + 1 := by
          simpa [List.length_append] using hl
        omega
      rw [he, findall_cons hm, List.flatten_cons, htok, hdrop, ih r hrlen hr]
      exact he

/-- C1: for every SMILES string over the supported grammar, concatenating the
tokens returned by the tokenizer reconstructs the input exactly; and whenever
concatenation would not reconstruct the input, the tokenizer fails with the
round-trip `TokenizationError`. -/
theorem smi_tokenizer_round_trip (s : List Char) :
    (SmiGrammar s → ∃ ts, smi_tokenizer s = Except.ok ts ∧ ts.flatten = s) ∧
    ((findall s).flatten ≠ s →
      smi_tokenizer s = Except.error TokenizationError.roundTripFailed) := by
  constructor
  · intro hg
    have hf : (findall s).flatten = s := findall_flatten s.length s le_rfl hg
    exact ⟨findall s, by simp [smi_tokenizer, hf], hf⟩
  · intro hne
    simp [smi_tokenizer, hne]

/-- Witness for C1: the round-trip theorem applied to the concrete grammar
string `CCO`. -/
theorem smi_tokenizer_round_trip_witness :
    ∃ ts, smi_tokenizer ['C', 'C', 'O'] = Except.ok ts ∧
      ts.flatten = ['C', 'C', 'O'] :=
  (smi_tokenizer_round_trip ['C', 'C', 'O']).1
    (SmiGrammar.cons ['C'] _ SmiToken.cTok
      (SmiGrammar.cons ['C'] _ SmiToken.cTok
        (SmiGrammar.cons ['O'] _ (SmiToken.singleTok 'O' (by decide))
          SmiGrammar.nil)))

/-! ## `count_rings_and_bonds`

The RDKit molecule is external to the repository; it is modelled by exactly
the data the notebook reads from it: `GetSymmSSSR(mol)` (the
smallest-set-of-smallest-rings, each ring a list of atom indices) and
`mol.GetBonds()` (the bond types).  For a molecule built by `MolFromSmiles`,
`GetIsAromatic()` on a bond holds exactly when its bond type is aromatic, so
the aromatic flag is modelled as `· = BondType.aromatic`. -/

/-- Bond types occurring in molecules parsed from SMILES. -/
inductive BondType where
  | single
  | double
  | triple
  | aromatic
deriving DecidableEq

/-- Model of the RDKit molecule as read by `count_rings_and_bonds`. -/
structure Mol where
  ssr : List (List ℕ)
  bonds : List BondType
deriving DecidableEq

/-- The dict update in the ring loop
(`if ring_size not in ring_sizes: ring_sizes[ring_size] = 0` followed by
`ring_sizes[ring_size] += 1`) on an insertion-ordered association list. -/
def bump : List (ℕ × ℕ) → ℕ → List (ℕ × ℕ)
  | [], k => [(k, 1)]
  | (a, v) :: d, k => if a = k then (a, v + 1) :: d else (a, v) :: bump d k

/-- The initial ring-size dict:
`\x7b\x7d if max_ring_size < 0 else \x7bi: 0 for i in range(3, max_ring_size+1)\x7d`. -/
def initRingSizes (max_ring_size : ℤ) : List (ℕ × ℕ) :=
  if max_ring_size < 0 then []
  else (List.range' 3 (max_ring_size - 2).toNat).map (fun i => (i, 0))

/-- One step of the bond-type loop: aromatic first, then the `elif` chain on
the bond type. -/
def bondStep (bc : ℕ × ℕ × ℕ × ℕ) (b : BondType) : ℕ × ℕ × ℕ × ℕ :=
  if b = BondType.aromatic then (bc.1, bc.2.1, bc.2.2.1, bc.2.2.2 + 1)
  else if b = BondType.single then (bc.1 + 1, bc.2.1, bc.2.2.1, bc.2.2.2)
  else if b = BondType.double then (bc.1, bc.2.1 + 1, bc.2.2.1, bc.2.2.2)
  else if b = BondType.triple then (bc.1, bc.2.1, bc.2.2.1 + 1, bc.2.2.2)
  else bc

/-- The result dict of `count_rings_and_bonds`: the `ring_count` key, the
`R{k}` keys (kept as the association list `ringSizes`), and the four
`{type}_bond` keys. -/
structure RingBondResult where
  ring_count : ℕ
  ringSizes : List (ℕ × ℕ)
  single_bond : ℕ
  double_bond : ℕ
  triple_bond : ℕ
  aromatic_bond : ℕ
deriving DecidableEq

/-- The function `count_rings_and_bonds(mol, max_ring_size)` from the notebook. -/
def count_rings_and_bonds (mol : Mol) (max_ring_size : ℤ) : RingBondResult :=
  let ssr := mol.ssr
  let ring_count := ssr.length
  let ring_sizes := ssr.foldl (fun d ring => bump d ring.length)
    (initRingSizes max_ring_size)
  let bc := mol.bonds.foldl bondStep (0, 0, 0, 0)
  { ring_count := ring_count
    ringSizes := ring_sizes
    single_bond := bc.1
    double_bond := bc.2.1
    triple_bond := bc.2.2.1
    aromatic_bond := bc.2.2.2 }

/-- A benzene-like molecule: one six-membered ring, six aromatic bonds. -/
def benzene : Mol :=
  { ssr := [[0, 1, 2, 3, 4, 5]], bonds := List.replicate 6 BondType.aromatic }

/-- Number of SSSR rings of a given size. -/
def sizeCount (k : ℕ) (l : List (List ℕ)) : ℕ :=
  l.countP (fun ring => ring.length == k)

theorem lookup_bump_self (d : List (ℕ × ℕ)) (k : ℕ) :
    List.lookup k (bump d k) = some ((List.lookup k d).getD 0 + 1) := by
  induction d with
  | nil => simp [bump, List.lookup]
  | cons p d ih =>
    obtain ⟨a, v⟩ := p
    by_cases h : a = k
    · subst h
      simp [bump, List.lookup]
    · have h2 : (k == a) = false := by simp [Ne.symm h]
      simp [bump, h, List.lookup, h2, ih]

theorem lookup_bump_other (d : List (ℕ × ℕ)) (k j : ℕ) (h : j ≠ k) :
    List.lookup j (bump d k) = List.lookup j d := by
  induction d with
  | nil =>
    have h2 : (j == k) = false := by simp [h]
    simp [bump, List.lookup, h2]
  | cons p d ih =>
    obtain ⟨a, v⟩ := p
    by_cases ha : a = k
    · subst ha
      have h2 : (j == a) = false := by simp [h]
      simp [bump, List.lookup, h2]
    · by_cases hj : j = a
      · subst hj
        simp [bump, ha, List.lookup]
      · have h2 : (j == a) = false := by simp [hj]
        simp [bump, ha, List.lookup, h2, ih]

theorem lookup_foldl_bump (l : List (List ℕ)) : ∀ (d : List (ℕ × ℕ)) (k : ℕ),
    List.lookup k (l.foldl (fun d2 ring => bump d2 ring.length) d) =
      match List.lookup k d with
      | some v => some (v + sizeCount k l)
      | none => if sizeCount k l = 0 then none else some (sizeCount k l) := by
  induction l with
  | nil =>
    intro d k
    cases h : List.lookup k d <;> simp [sizeCount, h]
  | cons ring tl ih =>
    intro d k
    rw [List.foldl_cons, ih (bump d ring.length) k]
    by_cases hk : ring.length = k
    · subst hk
      rw [lookup_bump_self]
      have hsc : sizeCount ring.length (ring :: tl) = sizeCount ring.length tl + 1 := by
        simp [sizeCount, List.countP_cons]
      cases h : List.lookup ring.length d <;>
        simp [h, hsc] <;> omega
    · rw [lookup_bump_other d ring.length k (Ne.symm hk)]
      have hsc : sizeCount k (ring :: tl) = sizeCount k tl := by
        simp [sizeCount, List.countP_cons, hk]
      cases h : List.lookup k d <;> simp [h, hsc]

theorem lookup_map_zero (L : List ℕ) (k : ℕ) (h : k ∈ L) :
    List.lookup k (L.map (fun i => (i, 0))) = some 0 := by
  induction L with
  | nil => cases h
  | cons a L ih =>
    by_cases ha : k = a
    · subst ha
      simp [List.lookup]
    · have h2 : (k == a) = false := by simp [ha]
      have h3 : k ∈ L := by
        rcases List.mem_cons.mp h with he | hm
        · exact absurd he ha
        · exact hm
      simp [List.lookup, h2, ih h3]

theorem lookup_map_zero_val (L : List ℕ) (k v : ℕ)
    (h : List.lookup k (L.map (fun i => (i, 0))) = some v) : v = 0 := by
  induction L with
  | nil => simp [List.lookup] at h
  | cons a L ih =>
    by_cases ha : k = a
    · subst ha
      simp [List.lookup] at h
      omega
    · have h2 : (k == a) = false := by simp [ha]
      simp [List.lookup, h2] at h
      exact ih h

theorem lookup_initRingSizes (m : ℤ) (k : ℕ) (h3 : 3 ≤ (k : ℤ)) (hm : (k : ℤ) ≤ m) :
    List.lookup k (initRingSizes m) = some 0 := by
  have h0 : ¬ m < 0 := by omega
  rw [initRingSizes, if_neg h0]
  apply lookup_map_zero
  rw [List.mem_range'_1]
  omega

theorem lookup_initRingSizes_val (m : ℤ) (k v : ℕ)
    (h : List.lookup k (initRingSizes m) = some v) : v = 0 := by
  rw [initRingSizes] at h
  by_cases h0 : m < 0
  · rw [if_pos h0] at h
    simp [List.lookup] at h
  · rw [if_neg h0] at h
    exact lookup_map_zero_val _ k v h

/-- Sum of the values of the ring-size dict. -/
def sumVals (d : List (ℕ × ℕ)) : ℕ := (d.map (fun p => p.2)).sum

theorem sumVals_bump (d : List (ℕ × ℕ)) (k : ℕ) :
    sumVals (bump d k) = sumVals d + 1 := by
  induction d with
  | nil => simp [bump, sumVals]
  | cons p d ih =>
    obtain ⟨a, v⟩ := p
    by_cases h : a = k
    · subst h
      simp [bump, sumVals]
      omega
    · simp [bump, h, sumVals] at ih ⊢
      omega

theorem sumVals_foldl (l : List (List ℕ)) : ∀ d : List (ℕ × ℕ),
    sumVals (l.foldl (fun d2 ring => bump d2 ring.length) d) = sumVals d + l.length := by
  induction l with
  | nil => intro d; simp
  | cons ring tl ih =>
    intro d
    rw [List.foldl_cons, ih (bump d ring.length), sumVals_bump]
    simp
    omega

theorem sumVals_initRingSizes (m : ℤ) : sumVals (initRingSizes m) = 0 := by
  rw [initRingSizes]
  by_cases h : m < 0
  · rw [if_pos h]; rfl
  · rw [if_neg h]
    induction List.range' 3 (m - 2).toNat with
    | nil => rfl
    | cons a L ih => simpa [sumVals] using ih

theorem bonds_foldl (bs : List BondType) : ∀ s0 d0 t0 a0 : ℕ,
    bs.foldl bondStep (s0, d0, t0, a0) =
      (s0 + bs.countP (fun b => b == BondType.single),
       d0 + bs.countP (fun b => b == BondType.double),
       t0 + bs.countP (fun b => b == BondType.triple),
       a0 + bs.countP (fun b => b == BondType.aromatic)) := by
  induction bs with
  | nil => intro s0 d0 t0 a0; simp
  | cons b tl ih =>
    intro s0 d0 t0 a0
    cases b <;>
      simp [bondStep, List.countP_cons, List.foldl_cons, ih, Prod.ext_iff] <;>
      omega

theorem countP_bondType (bs : List BondType) :
    bs.countP (fun b => b == BondType.single) +
      bs.countP (fun b => b == BondType.double) +
      bs.countP (fun b => b == BondType.triple) +
      bs.countP (fun b => b == BondType.aromatic) = bs.length := by
  induction bs with
  | nil => simp
  | cons b tl ih =>
    cases b <;> simp [List.countP_cons] <;> omega

/-- C6: for every molecule and every configured maximum ring size, the SSSR
counts are bucketed by ring size — every size from 3 up to the maximum has
its own key holding the number of rings of that size, a ring larger than the
maximum is still counted under its own size key, and for a benzene-like
six-membered aromatic ring the result has `ring_count = 1` and `R6 = 1`. -/
theorem count_rings_buckets (mol : Mol) (max_ring_size : ℤ) :
    (∀ k : ℕ, 3 ≤ (k : ℤ) → (k : ℤ) ≤ max_ring_size →
      List.lookup k (count_rings_and_bonds mol max_ring_size).ringSizes =
        some (sizeCount k mol.ssr)) ∧
    (∀ ring ∈ mol.ssr, max_ring_size < (ring.length : ℤ) →
      List.lookup ring.length (count_rings_and_bonds mol max_ring_size).ringSizes =
        some (sizeCount ring.length mol.ssr) ∧ 1 ≤ sizeCount ring.length mol.ssr) ∧
    (count_rings_and_bonds benzene 9).ring_count = 1 ∧
    List.lookup 6 (count_rings_and_bonds benzene 9).ringSizes = some 1 := by
  refine ⟨fun k h3 hm => ?_, fun ring hmem _ => ?_, by decide, by decide⟩
  · show List.lookup k (mol.ssr.foldl (fun d ring => bump d ring.length)
      (initRingSizes max_ring_size)) = _
    rw [lookup_foldl_bump, lookup_initRingSizes max_ring_size k h3 hm]
    simp
  · have hpos : 0 < sizeCount ring.length mol.ssr := by
      rw [sizeCount, List.countP_pos_iff]
      exact ⟨ring, hmem, by simp⟩
    refine ⟨?_, hpos⟩
    show List.lookup ring.length (mol.ssr.foldl (fun d r2 => bump d r2.length)
      (initRingSizes max_ring_size)) = _
    rw [lookup_foldl_bump]
    cases h : List.lookup ring.length (initRingSizes max_ring_size) with
    | none =>
      simp only []
      rw [if_neg (by omega)]
    | some v =>
      have : v = 0 := lookup_initRingSizes_val max_ring_size ring.length v h
      subst this
      simp

/-- Witness for C6: the general bucket description applied to the benzene
ring at size 6 with maximum ring size 9. -/
theorem count_rings_buckets_witness :
    List.lookup 6 (count_rings_and_bonds benzene 9).ringSizes =
      some (sizeCount 6 benzene.ssr) :=
  (count_rings_buckets benzene 9).1 6 (by decide) (by decide)

/-- C7: every bond is counted in exactly one of the single/double/triple/
aromatic buckets (the four buckets partition the bond list, each bucket
counting exactly the bonds of its type, so an aromatic bond is never also
counted as single, double or triple); for the benzene-like ring,
`aromatic_bond = 6` and `single_bond = double_bond = triple_bond = 0`. -/
theorem count_bonds_partition (mol : Mol) (max_ring_size : ℤ) :
    ((count_rings_and_bonds mol max_ring_size).single_bond =
        mol.bonds.countP (fun b => b == BondType.single) ∧
      (count_rings_and_bonds mol max_ring_size).double_bond =
        mol.bonds.countP (fun b => b == BondType.double) ∧
      (count_rings_and_bonds mol max_ring_size).triple_bond =
        mol.bonds.countP (fun b => b == BondType.triple) ∧
      (count_rings_and_bonds mol max_ring_size).aromatic_bond =
        mol.bonds.countP (fun b => b == BondType.aromatic)) ∧
    (count_rings_and_bonds mol max_ring_size).single_bond +
      (count_rings_and_bonds mol max_ring_size).double_bond +
      (count_rings_and_bonds mol max_ring_size).triple_bond +
      (count_rings_and_bonds mol max_ring_size).aromatic_bond =
      mol.bonds.length ∧
    (count_rings_and_bonds benzene (-1)).aromatic_bond = 6 ∧
    (count_rings_and_bonds benzene (-1)).single_bond = 0 ∧
    (count_rings_and_bonds benzene (-1)).double_bond = 0 ∧
    (count_rings_and_bonds benzene (-1)).triple_bond = 0 := by
  have hfold := bonds_foldl mol.bonds 0 0 0 0
  have hs : (count_rings_and_bonds mol max_ring_size).single_bond =
      mol.bonds.countP (fun b => b == BondType.single) := by
    show (mol.bonds.foldl bondStep (0, 0, 0, 0)).1 = _
    rw [hfold]
    simp
  have hd : (count_rings_and_bonds mol max_ring_size).double_bond =
      mol.bonds.countP (fun b => b == BondType.double) := by
    show (mol.bonds.foldl bondStep (0, 0, 0, 0)).2.1 = _
    rw [hfold]
    simp
  have ht : (count_rings_and_bonds mol max_ring_size).triple_bond =
      mol.bonds.countP (fun b => b == BondType.triple) := by
    show (mol.bonds.foldl bondStep (0, 0, 0, 0)).2.2.1 = _
    rw [hfold]
    simp
  have ha : (count_rings_and_bonds mol max_ring_size).aromatic_bond =
      mol.bonds.countP (fun b => b == BondType.aromatic) := by
    show (mol.bonds.foldl bondStep (0, 0, 0, 0)).2.2.2 = _
    rw [hfold]
    simp
  refine ⟨⟨hs, hd, ht, ha⟩, ?_, by decide, by decide, by decide, by decide⟩
  rw [hs, hd, ht, ha]
  exact countP_bondType mol.bonds

/-- C9: `ring_count` equals the sum of all the ring-size bucket values: every
ring goes into exactly one bucket and the pre-initialized buckets contribute
zero. -/
theorem ring_count_eq_bucket_sum (mol : Mol) (max_ring_size : ℤ) :
    (count_rings_and_bonds mol max_ring_size).ring_count =
      sumVals (count_rings_and_bonds mol max_ring_size).ringSizes := by
  show mol.ssr.length = sumVals (mol.ssr.foldl (fun d ring => bump d ring.length)
    (initRingSizes max_ring_size))
  rw [sumVals_foldl, sumVals_initRingSizes]
  omega

/-! ## `parse_xyz`: the QM9 structure-file parser

The parser reads the file line by line
(`for line_num, line in enumerate(f)`), dispatching on the line number:
line 0 is `int(line)`; line 1 takes `float` of the fields after the first
two; lines `2 .. 1 + num_atoms` unpack into exactly five fields (symbol,
three coordinates, charge, the numerics through `parse_float`); line
`num_atoms + 2` is the frequency list; lines `num_atoms + 3` / `num_atoms + 4`
take the first whitespace field; any other line number is ignored.
Python exceptions (`ValueError` from `int`/`float`/tuple unpacking,
`IndexError` from `split()[0]`) are the spec's `MalformedRecordError`. -/

/-- Errors of the pipeline, named after the spec's classification.
`nameError` and `assertionError` model the Python `NameError` (unresolved
`torch`) and the failed entry assertion of `parse_xyz`. -/
inductive PyError where
  | malformedRecord
  | unparseableStructure
  | nameError
  | assertionError
deriving DecidableEq

/-- The mutable state of the reading loop of `parse_xyz`. -/
structure RawMol where
  num_atoms : ℤ
  scalar_properties : List ℚ
  atomic_symbols : List (List Char)
  xyz : List (List ℚ)
  charges : List ℚ
  harmonic_vibrational_frequencies : List ℚ
  smiles : List Char
  inchi : List Char
deriving DecidableEq

/-- The initial loop state (`num_atoms = 0`, empty accumulators). -/
def initRaw : RawMol :=
  { num_atoms := 0, scalar_properties := [], atomic_symbols := [], xyz := [],
    charges := [], harmonic_vibrational_frequencies := [], smiles := [],
    inchi := [] }

/-- One iteration of the reading loop on the line with index `i`. -/
def handleLine (i : ℕ) (st : RawMol) (line : List Char) : Except PyError RawMol :=
  if i = 0 then
    match parseIntStrip line with
    | some n => .ok { st with num_atoms := n }
    | none => .error .malformedRecord
  else if i = 1 then
    match ((splitWS line).drop 2).mapM parseFloat? with
    | some ps => .ok { st with scalar_properties := ps }
    | none => .error .malformedRecord
  else if 2 ≤ i ∧ (i : ℤ) ≤ 1 + st.num_atoms then
    match splitWS line with
    | [a, x, y, z, c] =>
      match parse_float x, parse_float y, parse_float z, parse_float c with
      | some px, some py, some pz, some pc =>
        .ok { st with atomic_symbols := st.atomic_symbols ++ [a],
                      xyz := st.xyz ++ [[px, py, pz]],
                      charges := st.charges ++ [pc] }
      | _, _, _, _ => .error .malformedRecord
    | _ => .error .malformedRecord
  else if (i : ℤ) = st.num_atoms + 2 then
    match (splitWS line).mapM parseFloat? with
    | some ps => .ok { st with harmonic_vibrational_frequencies := ps }
    | none => .error .malformedRecord
  else if (i : ℤ) = st.num_atoms + 3 then
    match splitWS line with
    | t :: _ => .ok { st with smiles := t }
    | [] => .error .malformedRecord
  else if (i : ℤ) = st.num_atoms + 4 then
    match splitWS line with
    | t :: _ => .ok { st with inchi := t }
    | [] => .error .malformedRecord
  else .ok st

/-- The reading loop from line index `i` onwards. -/
def parseLinesGo : ℕ → RawMol → List (List Char) → Except PyError RawMol
  | _, st, [] => .ok st
  | i, st, l :: ls =>
    match handleLine i st l with
    | .ok st2 => parseLinesGo (i + 1) st2 ls
    | .error e => .error e

/-- The whole reading phase of `parse_xyz` over the file's lines. -/
def parseLines (lines : List (List Char)) : Except PyError RawMol :=
  parseLinesGo 0 initRaw lines

/-- The external chemistry toolkit used by the descriptor phase of
`parse_xyz` (`CanonSmiles`, `MolFromSmiles`, `Crippen.MolLogP`, `QED.qed`,
`npscorer.scoreMol`, `sascorer.calculateScore`), abstracted as function
parameters; `μ` is the type of the natural-product scoring model. -/
structure ChemToolkit (μ : Type) where
  canonSmiles : List Char → Option (List Char)
  molFromSmiles : List Char → Mol
  molLogP : Mol → ℚ
  qed : Mol → ℚ
  scoreMol : Mol → μ → ℚ
  calculateScore : Mol → ℚ

/-- The fifteen scalar-property labels zipped against line 1's fields. -/
def scalar_property_labels : List (List Char) :=
  ["A".toList, "B".toList, "C".toList, "mu".toList, "alpha".toList,
   "homo".toList, "lumo".toList, "gap".toList, "r2".toList, "zpve".toList,
   "u0".toList, "u".toList, "h".toList, "g".toList, "cv".toList]

/-- The result dict of `parse_xyz`: an absent `np_score` key is `none`. -/
structure Record where
  num_atoms : ℤ
  atomic_symbols : List (List Char)
  pos : List (List ℚ)
  charges : List ℚ
  harmonic_oscillator_frequencies : List ℚ
  smiles : List Char
  inchi : List Char
  scalars : List (List Char × ℚ)
  canonical_smiles : List Char
  logP : ℚ
  qed : ℚ
  np_score : Option ℚ
  sa_score : ℚ
  rings_bonds : RingBondResult
deriving DecidableEq

/-- Modelled from the notebook's import cells: the modules imported at top
level are `os`, `huggingface_hub`, `json`, `typing`, `datasets`, `numpy`
(as `np`), `pandas`, `rdkit`, `transformers` and RDKit submodules; `torch`
is never imported, so the name `torch` on the fallback branch of
`array_wrap` does not resolve. -/
def torchImported : Bool := false

/-- The parser `parse_xyz(filename, max_ring_size, npscorer_model, array_format)`:
entry assertion on `array_format`, the reading loop, the `array_wrap`
name resolution (`np.array if array_format == 'np' else torch.tensor`),
then result assembly plus the RDKit descriptor phase. -/
def parse_xyz {μ : Type} (ck : ChemToolkit μ) (lines : List (List Char))
    (max_ring_size : ℤ) (npscorer_model : Option μ) (array_format : List Char) :
    Except PyError Record :=
  if array_format = "np".toList ∨ array_format = "pt".toList then
    match parseLines lines with
    | .error e => .error e
    | .ok raw =>
      if array_format = "np".toList ∨ torchImported then
        match ck.canonSmiles raw.smiles with
        | none => .error .unparseableStructure
        | some canon =>
          let m := ck.molFromSmiles canon
          .ok { num_atoms := raw.num_atoms
                atomic_symbols := raw.atomic_symbols
                pos := raw.xyz
                charges := raw.charges
                harmonic_oscillator_frequencies :=
                  raw.harmonic_vibrational_frequencies
                smiles := raw.smiles
                inchi := raw.inchi
                scalars := scalar_property_labels.zip raw.scalar_properties
                canonical_smiles := canon
                logP := ck.molLogP m
                qed := ck.qed m
                np_score := npscorer_model.map (fun model => ck.scoreMol m model)
                sa_score := ck.calculateScore m
                rings_bonds := count_rings_and_bonds m max_ring_size }
      else .error .nameError
  else .error .assertionError

/-- The batch loop of the notebook: each file in turn through `parse_xyz`,
appending to `parsed_xyz`; there is no `try`/`except` around the call, so an
exception propagates and aborts the loop. -/
def parseBatch {μ : Type} (ck : ChemToolkit μ) (max_ring_size : ℤ)
    (npscorer_model : Option μ) (array_format : List Char) :
    List (List (List Char)) → Except PyError (List Record)
  | [] => .ok []
  | f :: fs =>
    match parse_xyz ck f max_ring_size npscorer_model array_format with
    | .error e => .error e
    | .ok r =>
      match parseBatch ck max_ring_size npscorer_model array_format fs with
      | .error e => .error e
      | .ok rs => .ok (r :: rs)

/-- Decidable success test for `Except`. -/
def exceptOk {ε α : Type} : Except ε α → Bool
  | .ok _ => true
  | .error _ => false

/-- Per-line wellformedness for the line with index `i` of a file whose
line 0 declares `N` atoms, mirroring the layout of §4.1 of the spec. -/
def validLine (N : ℤ) (i : ℕ) (l : List Char) : Bool :=
  if i = 0 then (parseIntStrip l).isSome
  else if i = 1 then (((splitWS l).drop 2).mapM parseFloat?).isSome
  else if 2 ≤ i ∧ (i : ℤ) ≤ 1 + N then
    match splitWS l with
    | [_, x, y, z, c] =>
      (parse_float x).isSome && (parse_float y).isSome &&
        (parse_float z).isSome && (parse_float c).isSome
    | _ => false
  else if (i : ℤ) = N + 2 then ((splitWS l).mapM parseFloat?).isSome
  else if (i : ℤ) = N + 3 then !(splitWS l).isEmpty
  else if (i : ℤ) = N + 4 then !(splitWS l).isEmpty
  else true

/-- Wellformedness of each remaining line, starting at index `i`. -/
def validLinesFrom (N : ℤ) : ℕ → List (List Char) → Bool
  | _, [] => true
  | i, l :: ls => validLine N i l && validLinesFrom N (i + 1) ls

/-- A valid structure file per the fixed layout: line 0 declares a positive
atom count `N`, the file has exactly `N + 5` lines, and every line conforms
to its positional format. -/
def validLayout (lines : List (List Char)) : Bool :=
  match lines with
  | [] => false
  | l0 :: rest =>
    match parseIntStrip l0 with
    | none => false
    | some N =>
      decide (1 ≤ N) && decide ((lines.length : ℤ) = N + 5) &&
        validLinesFrom N 1 rest

/-- How many of the `len` line indices starting at `i` fall in the
atom-line range `2 .. 1 + N`. -/
def atomIdxCount (N : ℤ) : ℕ → ℕ → ℕ
  | _, 0 => 0
  | i, len + 1 =>
    (if 2 ≤ i ∧ (i : ℤ) ≤ 1 + N then 1 else 0) + atomIdxCount N (i + 1) len

/-- A concrete valid single-atom structure file (6 lines, `N = 1`). -/
def sampleLines : List (List Char) :=
  ["1".toList, "gdb 1 0.5 -2".toList, "C 0.0 1.5 -1.0 0.25".toList,
   "100.0".toList, "C".toList, "InChI=1S/CH4/h1H4".toList]

/-- A malformed structure file: line 0 is not an integer. -/
def badFile : List (List Char) := ["x".toList]

/-- The sample file with one extra trailing line: the line count deviates
from the `N + 5` layout. -/
def extraLineFile : List (List Char) := sampleLines ++ ["extra".toList]

/-- A concrete toolkit instance for witnesses (canonicalization succeeds,
all scores zero, every SMILES mapped to the benzene model). -/
def trivialChem : ChemToolkit ℕ :=
  { canonSmiles := fun s => some s
    molFromSmiles := fun _ => benzene
    molLogP := fun _ => 0
    qed := fun _ => 0
    scoreMol := fun _ _ => 0
    calculateScore := fun _ => 0 }

/-- A line that is valid for index `i ≥ 1` is processed successfully; the
processed state keeps `num_atoms` and grows the three per-atom lists by one
exactly on atom lines (indices `2 .. 1 + N`). -/
theorem handleLine_valid {N : ℤ} {i : ℕ} {l : List Char} (st : RawMol)
    (hi : 1 ≤ i) (hN : st.num_atoms = N) (hv : validLine N i l = true) :
    ∃ st2, handleLine i st l = .ok st2 ∧ st2.num_atoms = N ∧
      st2.atomic_symbols.length = st.atomic_symbols.length +
        (if 2 ≤ i ∧ (i : ℤ) ≤ 1 + N then 1 else 0) ∧
      st2.xyz.length = st.xyz.length +
        (if 2 ≤ i ∧ (i : ℤ) ≤ 1 + N then 1 else 0) ∧
      st2.charges.length = st.charges.length +
        (if 2 ≤ i ∧ (i : ℤ) ≤ 1 + N then 1 else 0) := by
  have hi0 : ¬ i = 0 := by omega
  rw [validLine, if_neg hi0] at hv
  rw [handleLine, if_neg hi0]
  by_cases hi1 : i = 1
  · subst hi1
    rw [if_pos rfl] at hv ⊢
    cases hm : ((splitWS l).drop 2).mapM parseFloat? with
    | none => rw [hm] at hv; simp at hv
    | some ps =>
      refine ⟨_, rfl, hN, ?_, ?_, ?_⟩ <;> (rw [if_neg (by omega)]; simp)
  · rw [if_neg hi1] at hv ⊢
    by_cases hr2 : 2 ≤ i ∧ (i : ℤ) ≤ 1 + N
    · have hr2a : 2 ≤ i ∧ (i : ℤ) ≤ 1 + st.num_atoms := by rw [hN]; exact hr2
      rw [if_pos hr2] at hv
      rw [if_pos hr2a]
      rcases hl : splitWS l with _ | ⟨a, _ | ⟨x, _ | ⟨y, _ | ⟨z, _ | ⟨c, _ | ⟨d, rest⟩⟩⟩⟩⟩⟩ <;>
        rw [hl] at hv
      · simp at hv
      · simp at hv
      · simp at hv
      · simp at hv
      · simp at hv
      · simp only [Bool.and_eq_true] at hv
        obtain ⟨⟨⟨hx, hy⟩, hz⟩, hc⟩ := hv
        obtain ⟨px, hx⟩ := Option.isSome_iff_exists.mp hx
        obtain ⟨py, hy⟩ := Option.isSome_iff_exists.mp hy
        obtain ⟨pz, hz⟩ := Option.isSome_iff_exists.mp hz
        obtain ⟨pc, hc⟩ := Option.isSome_iff_exists.mp hc
        refine ⟨{ st with atomic_symbols := st.atomic_symbols ++ [a],
                          xyz := st.xyz ++ [[px, py, pz]],
                          charges := st.charges ++ [pc] }, ?_, hN, ?_, ?_, ?_⟩
        · simp only [hx, hy, hz, hc]
        · rw [if_pos hr2]; simp
        · rw [if_pos hr2]; simp
        · rw [if_pos hr2]; simp
      · simp at hv
    · have hr2a : ¬(2 ≤ i ∧ (i : ℤ) ≤ 1 + st.num_atoms) := by rw [hN]; exact hr2
      rw [if_neg hr2] at hv
      rw [if_neg hr2a]
      by_cases h2 : (i : ℤ) = N + 2
      · rw [if_pos h2] at hv
        rw [if_pos (show (i : ℤ) = st.num_atoms + 2 by rw [hN]; exact h2)]
        cases hm : (splitWS l).mapM parseFloat? with
        | none => rw [hm] at hv; simp at hv
        | some ps =>
          refine ⟨_, rfl, hN, ?_, ?_, ?_⟩ <;> (rw [if_neg hr2]; simp)
      · rw [if_neg h2] at hv
        rw [if_neg (show ¬ (i : ℤ) = st.num_atoms + 2 by rw [hN]; exact h2)]
        by_cases h3 : (i : ℤ) = N + 3
        · rw [if_pos h3] at hv
          rw [if_pos (show (i : ℤ) = st.num_atoms + 3 by rw [hN]; exact h3)]
          cases hsp : splitWS l with
          | nil => rw [hsp] at hv; simp at hv
          | cons t rest =>
            refine ⟨_, rfl, hN, ?_, ?_, ?_⟩ <;> (rw [if_neg hr2]; simp)
        · rw [if_neg h3] at hv
          rw [if_neg (show ¬ (i : ℤ) = st.num_atoms + 3 by rw [hN]; exact h3)]
          by_cases h4 : (i : ℤ) = N + 4
          · rw [if_pos h4] at hv
            rw [if_pos (show (i : ℤ) = st.num_atoms + 4 by rw [hN]; exact h4)]
            cases hsp : splitWS l with
            | nil => rw [hsp] at hv; simp at hv
            | cons t rest =>
              refine ⟨_, rfl, hN, ?_, ?_, ?_⟩ <;> (rw [if_neg hr2]; simp)
          · rw [if_neg (show ¬ (i : ℤ) = st.num_atoms + 4 by rw [hN]; exact h4)]
            refine ⟨st, rfl, hN, ?_, ?_, ?_⟩ <;> (rw [if_neg hr2]; simp)

/-- Running the loop from index `i ≥ 1` over lines that are valid for their
indices succeeds, keeps `num_atoms`, and grows the per-atom lists by the
number of indices in the atom range. -/
theorem parseLinesGo_valid (ls : List (List Char)) : ∀ (i : ℕ) (st : RawMol) (N : ℤ),
    1 ≤ i → st.num_atoms = N → validLinesFrom N i ls = true →
    ∃ r, parseLinesGo i st ls = .ok r ∧ r.num_atoms = N ∧
      r.atomic_symbols.length = st.atomic_symbols.length + atomIdxCount N i ls.length ∧
      r.xyz.length = st.xyz.length + atomIdxCount N i ls.length ∧
      r.charges.length = st.charges.length + atomIdxCount N i ls.length := by
  induction ls with
  | nil =>
    intro i st N hi hN hv
    exact ⟨st, rfl, hN, by simp [atomIdxCount], by simp [atomIdxCount],
      by simp [atomIdxCount]⟩
  | cons l ls ih =>
    intro i st N hi hN hv
    rw [validLinesFrom, Bool.and_eq_true] at hv
    obtain ⟨hv1, hv2⟩ := hv
    obtain ⟨st2, hst2, hN2, hs2, hx2, hc2⟩ := handleLine_valid st hi hN hv1
    obtain ⟨r, hr, hNr, hsr, hxr, hcr⟩ := ih (i + 1) st2 N (by omega) hN2 hv2
    refine ⟨r, ?_, hNr, ?_, ?_, ?_⟩
    · rw [parseLinesGo, hst2]
      exact hr
    · rw [hsr, hs2, List.length_cons, atomIdxCount]
      omega
    · rw [hxr, hx2, List.length_cons, atomIdxCount]
      omega
    · rw [hcr, hc2, List.length_cons, atomIdxCount]
      omega

/-- The atom-range index count over the block of indices that ends exactly at
the last atom line: `k` indices starting at `i = N + 2 - k`, followed by the
three trailing lines. -/
theorem atomIdxCount_exact (N : ℤ) : ∀ (k i : ℕ), 2 ≤ i → (i : ℤ) + k = N + 2 →
    atomIdxCount N i (k + 3) = k := by
  intro k
  induction k with
  | zero =>
    intro i h2 he
    rw [show (0 + 3 : ℕ) = 3 from rfl]
    rw [atomIdxCount, if_neg (by omega), atomIdxCount, if_neg (by omega),
      atomIdxCount, if_neg (by omega), atomIdxCount]
  | succ k ih =>
    intro i h2 he
    rw [show (k + 1 + 3 : ℕ) = (k + 3) + 1 from by omega]
    rw [atomIdxCount, if_pos ⟨h2, by omega⟩, ih (i + 1) (by omega) (by omega)]
    omega

/-- C4: every valid structure file parses successfully and the resulting
record satisfies
`num_atoms = |atomic_symbols| = |positions| = |charges|`. -/
theorem parse_xyz_length_invariant (lines : List (List Char))
    (h : validLayout lines = true) :
    ∃ r, parseLines lines = .ok r ∧
      r.num_atoms = (r.atomic_symbols.length : ℤ) ∧
      r.atomic_symbols.length = r.xyz.length ∧
      r.xyz.length = r.charges.length := by
  cases lines with
  | nil => simp [validLayout] at h
  | cons l0 rest =>
    rw [validLayout] at h
    cases hN : parseIntStrip l0 with
    | none => rw [hN] at h; cases h
    | some N =>
      rw [hN] at h
      simp only [Bool.and_eq_true, decide_eq_true_eq] at h
      obtain ⟨⟨hN1, hlen⟩, hv⟩ := h
      have h0 : handleLine 0 initRaw l0 = .ok { initRaw with num_atoms := N } := by
        rw [handleLine, if_pos rfl, hN]
      obtain ⟨r, hr, hNr, hsr, hxr, hcr⟩ :=
        parseLinesGo_valid rest 1 { initRaw with num_atoms := N } N le_rfl rfl hv
      have hrl : rest.length = N.toNat + 4 := by
        rw [List.length_cons] at hlen
        omega
      have hcount : atomIdxCount N 1 rest.length = N.toNat := by
        rw [hrl, show (N.toNat + 4 : ℕ) = (N.toNat + 3) + 1 from by omega,
          atomIdxCount, if_neg (by omega),
          show (N.toNat + 3 : ℕ) = N.toNat + 3 from rfl,
          atomIdxCount_exact N N.toNat 2 (by omega) (by omega)]
        omega
      refine ⟨r, ?_, ?_, ?_, ?_⟩
      · rw [parseLines, parseLinesGo, h0]
        exact hr
      · rw [hNr, hsr, hcount]
        show N = ((0 + N.toNat : ℕ) : ℤ)
        omega
      · rw [hsr, hxr]
        rfl
      · rw [hxr, hcr]
        rfl

/-- Witness for C4: the length invariant at the concrete valid sample file. -/
theorem parse_xyz_length_invariant_witness :
    ∃ r, parseLines sampleLines = .ok r ∧
      r.num_atoms = (r.atomic_symbols.length : ℤ) ∧
      r.atomic_symbols.length = r.xyz.length ∧
      r.xyz.length = r.charges.length :=
  parse_xyz_length_invariant sampleLines (by decide)

/-- C2 counterexample: the sample file with one extra trailing line (7 lines
where the layout demands `N + 5 = 6`) and the sample file truncated to 3
lines both deviate from the fixed layout, yet the parser succeeds instead of
failing with `MalformedRecordError`. -/
theorem parse_xyz_layout_counterexample :
    validLayout extraLineFile = false ∧
    exceptOk (parseLines extraLineFile) = true ∧
    exceptOk (parse_xyz trivialChem extraLineFile 9 (some 0) ("np".toList)) = true ∧
    validLayout (sampleLines.take 3) = false ∧
    exceptOk (parseLines (sampleLines.take 3)) = true :=
  ⟨by decide, by decide, by decide, by decide, by decide⟩

/-- Line handlers with index `≥ 1` never change `num_atoms`. -/
theorem handleLine_num {i : ℕ} {st st2 : RawMol} {l : List Char} (hi : ¬ i = 0)
    (h : handleLine i st l = .ok st2) : st2.num_atoms = st.num_atoms := by
  rw [handleLine, if_neg hi] at h
  repeat' split at h
  all_goals first
    | (injection h with h2; subst h2; rfl)
    | cases h

/-- A prefix of a successfully parsed line list still parses successfully:
the loop simply ends earlier. -/
theorem parseLinesGo_take (ls : List (List Char)) : ∀ (i : ℕ) (st r : RawMol) (k : ℕ),
    parseLinesGo i st ls = .ok r → exceptOk (parseLinesGo i st (ls.take k)) = true := by
  induction ls with
  | nil =>
    intro i st r k _
    rw [List.take_nil]
    rfl
  | cons l ls ih =>
    intro i st r k h
    cases k with
    | zero => rfl
    | succ k =>
      rw [List.take_succ_cons]
      rw [parseLinesGo] at h ⊢
      cases hh : handleLine i st l with
      | error e => rw [hh] at h; simp at h
      | ok st2 =>
        rw [hh] at h
        exact ih (i + 1) st2 r k h

/-- Splitting the loop at a list append. -/
theorem parseLinesGo_append (ls ext : List (List Char)) : ∀ (i : ℕ) (st : RawMol),
    parseLinesGo i st (ls ++ ext) =
      match parseLinesGo i st ls with
      | .ok mid => parseLinesGo (i + ls.length) mid ext
      | .error e => .error e := by
  induction ls with
  | nil =>
    intro i st
    simp [parseLinesGo]
  | cons l ls ih =>
    intro i st
    rw [List.cons_append]
    rw [parseLinesGo]
    conv_rhs => rw [parseLinesGo]
    cases hh : handleLine i st l with
    | error e => rfl
    | ok st2 =>
      show parseLinesGo (i + 1) st2 (ls ++ ext) =
        match parseLinesGo (i + 1) st2 ls with
        | .ok mid => parseLinesGo (i + (l :: ls).length) mid ext
        | .error e => .error e
      rw [ih (i + 1) st2]
      have harith : i + 1 + ls.length = i + (l :: ls).length := by
        rw [List.length_cons]; omega
      rw [harith]

/-- Lines at indices past the whole layout (`≥ num_atoms + 5`, with at least
one declared atom) are ignored: the loop returns the state unchanged. -/
theorem parseLinesGo_past (ext : List (List Char)) : ∀ (i : ℕ) (st : RawMol),
    1 ≤ st.num_atoms → 2 ≤ i → st.num_atoms + 5 ≤ (i : ℤ) →
    parseLinesGo i st ext = .ok st := by
  induction ext with
  | nil => intro i st _ _ _; rfl
  | cons l ext ih =>
    intro i st h1 h2 h5
    rw [parseLinesGo]
    have hh : handleLine i st l = .ok st := by
      rw [handleLine, if_neg (by omega : ¬ i = 0), if_neg (by omega : ¬ i = 1),
        if_neg (by omega : ¬ (2 ≤ i ∧ (i : ℤ) ≤ 1 + st.num_atoms)),
        if_neg (by omega : ¬ (i : ℤ) = st.num_atoms + 2),
        if_neg (by omega : ¬ (i : ℤ) = st.num_atoms + 3),
        if_neg (by omega : ¬ (i : ℤ) = st.num_atoms + 4)]
    rw [hh]
    exact ih (i + 1) st h1 (by omega) (by omega)

/-- An atom line whose whitespace field count differs from 5 makes the tuple
unpacking raise: `MalformedRecordError`. -/
theorem handleLine_badAtom {i : ℕ} {st : RawMol} {l : List Char} (h2 : 2 ≤ i)
    (hle : (i : ℤ) ≤ 1 + st.num_atoms) (hsp : (splitWS l).length ≠ 5) :
    handleLine i st l = .error .malformedRecord := by
  rw [handleLine, if_neg (by omega : ¬ i = 0), if_neg (by omega : ¬ i = 1),
    if_pos ⟨h2, hle⟩]
  rcases hl : splitWS l with _ | ⟨a, _ | ⟨x, _ | ⟨y, _ | ⟨z, _ | ⟨c, _ | ⟨d, rest⟩⟩⟩⟩⟩⟩
  · rfl
  · rfl
  · rfl
  · rfl
  · rfl
  · rw [hl] at hsp; simp at hsp
  · rfl

/-- With a bad atom line (field count not 5) among the remaining lines, the
loop ends in an error. -/
theorem parseLinesGo_badAtomLine (ls : List (List Char)) :
    ∀ (i j : ℕ) (st : RawMol) (hj : j < ls.length),
    1 ≤ i → 2 ≤ i + j → ((i + j : ℕ) : ℤ) ≤ 1 + st.num_atoms →
    (splitWS (ls.get ⟨j, hj⟩)).length ≠ 5 →
    exceptOk (parseLinesGo i st ls) = false := by
  induction ls with
  | nil => intro i j st hj; exact absurd hj (by simp)
  | cons l ls ih =>
    intro i j st hj h1 h2 hle hbad
    rw [parseLinesGo]
    cases j with
    | zero =>
      have hb : handleLine i st l = .error .malformedRecord :=
        handleLine_badAtom (by omega) (by push_cast at hle; omega)
          (by simpa using hbad)
      rw [hb]
      rfl
    | succ j =>
      cases hh : handleLine i st l with
      | error e => rfl
      | ok st2 =>
        have hnum : st2.num_atoms = st.num_atoms := handleLine_num (by omega) hh
        exact ih (i + 1) j st2 (by simpa using hj) (by omega) (by omega)
          (by rw [hnum]; push_cast at hle ⊢; omega) (by simpa using hbad)

/-- C2 (amended): field-count deviations inside the declared layout abort the
parse with `MalformedRecordError` — in particular a line in the atom range
`2 .. 1 + N` with a whitespace field count other than 5 — but line-count
deviations alone are tolerated silently: every truncation of a successfully
parsed file still parses, and extra lines past index `num_atoms + 4` are
ignored, returning the same record. -/
theorem parse_xyz_layout_amended :
    (∀ lines r k, parseLines lines = .ok r →
      exceptOk (parseLines (lines.take k)) = true) ∧
    (∀ lines r extra, parseLines lines = .ok r → 1 ≤ r.num_atoms →
      r.num_atoms + 5 ≤ (lines.length : ℤ) →
      parseLines (lines ++ extra) = .ok r) ∧
    (∀ l0 rest N j (hj : j < rest.length), parseIntStrip l0 = some N →
      2 ≤ 1 + j → ((1 + j : ℕ) : ℤ) ≤ 1 + N →
      (splitWS (rest.get ⟨j, hj⟩)).length ≠ 5 →
      exceptOk (parseLines (l0 :: rest)) = false) := by
  refine ⟨fun lines r k h => parseLinesGo_take lines 0 initRaw r k h, ?_, ?_⟩
  · intro lines r extra h h1 h5
    rw [parseLines, parseLinesGo_append lines extra 0 initRaw]
    rw [parseLines] at h
    rw [h]
    exact parseLinesGo_past extra (0 + lines.length) r h1 (by omega)
      (by push_cast; omega)
  · intro l0 rest N j hj hN h2 hle hbad
    rw [parseLines, parseLinesGo]
    cases h0 : handleLine 0 initRaw l0 with
    | error e => rfl
    | ok st1 =>
      have hst1 : st1 = { initRaw with num_atoms := N } := by
        rw [handleLine, if_pos rfl, hN] at h0
        injection h0 with h2
        exact h2.symm
      exact parseLinesGo_badAtomLine rest 1 j st1 hj le_rfl (by omega)
        (by rw [hst1]; exact hle) hbad

/-- Witness for C2's amended claim: truncation tolerance at the sample file. -/
theorem parse_xyz_layout_amended_witness :
    exceptOk (parseLines (sampleLines.take 3)) = true := by
  have hok : exceptOk (parseLines sampleLines) = true := by decide
  cases h : parseLines sampleLines with
  | ok r => exact parse_xyz_layout_amended.1 sampleLines r 3 h
  | error e => rw [h] at hok; simp [exceptOk] at hok

/-- C3 counterexample: a batch with one malformed file among nine valid files
aborts with `MalformedRecordError` and yields no rows at all, instead of
skipping the bad file and producing nine rows. -/
theorem batch_abort_counterexample :
    parseBatch trivialChem 9 (some 0) ("np".toList)
      (List.replicate 5 sampleLines ++ badFile :: List.replicate 4 sampleLines) =
      .error .malformedRecord := rfl

/-- C3 (amended): the batch loop has no per-file error recovery: as soon as
one file raises, the whole batch raises that error and produces no rows, no
matter how many files precede or follow it. -/
theorem batch_abort {μ : Type} (ck : ChemToolkit μ)
    (fs1 fs2 : List (List (List Char))) (f : List (List Char))
    (max_ring_size : ℤ) (npm : Option μ) (fmt : List Char) (e : PyError)
    (h1 : ∀ g ∈ fs1, exceptOk (parse_xyz ck g max_ring_size npm fmt) = true)
    (h2 : parse_xyz ck f max_ring_size npm fmt = .error e) :
    parseBatch ck max_ring_size npm fmt (fs1 ++ f :: fs2) = .error e := by
  induction fs1 with
  | nil =>
    rw [List.nil_append, parseBatch, h2]
  | cons g gs ih =>
    have hg := h1 g (by simp)
    rw [List.cons_append, parseBatch]
    cases hx : parse_xyz ck g max_ring_size npm fmt with
    | error e2 => rw [hx] at hg; simp [exceptOk] at hg
    | ok r =>
      rw [ih (fun g2 hg2 => h1 g2 (by simp [hg2]))]

/-- Witness for C3's amended claim: one valid file followed by a malformed
one. -/
theorem batch_abort_witness :
    parseBatch trivialChem 9 (some 0) ("np".toList)
      ([sampleLines] ++ badFile :: []) = .error .malformedRecord :=
  batch_abort trivialChem [sampleLines] [] badFile 9 (some 0) ("np".toList)
    .malformedRecord (by decide) rfl

/-- C8: in every record returned by `parse_xyz`, the natural-product score is
present exactly when a scoring model was supplied: with `npscorer_model =
none` the `np_score` key is silently omitted, with a model it is present. -/
theorem np_score_iff_model {μ : Type} (ck : ChemToolkit μ)
    (lines : List (List Char)) (max_ring_size : ℤ) (npm : Option μ)
    (fmt : List Char) (r : Record)
    (h : parse_xyz ck lines max_ring_size npm fmt = .ok r) :
    (npm = none → r.np_score = none) ∧
    (∀ m, npm = some m → ∃ v, r.np_score = some v) := by
  simp only [parse_xyz] at h
  split at h
  · split at h
    · cases h
    · split at h
      · split at h
        · cases h
        · injection h with h2
          subst h2
          constructor
          · intro hn; subst hn; rfl
          · intro m hm; subst hm; exact ⟨_, rfl⟩
      · cases h
  · cases h

/-- Witness for C8: parsing the sample file without a model yields a record
with no `np_score`. -/
theorem np_score_iff_model_witness :
    ∃ r, parse_xyz trivialChem sampleLines 9 (none : Option ℕ) ("np".toList) =
      .ok r ∧ r.np_score = none := by
  have hok : exceptOk
      (parse_xyz trivialChem sampleLines 9 (none : Option ℕ) ("np".toList)) =
      true := by decide
  cases h : parse_xyz trivialChem sampleLines 9 (none : Option ℕ) ("np".toList) with
  | ok r =>
    exact ⟨r, rfl,
      (np_score_iff_model trivialChem sampleLines 9 none ("np".toList) r h).1 rfl⟩
  | error e => rw [h] at hok; simp [exceptOk] at hok

/-- C10: calling `parse_xyz` with `array_format = 'pt'` passes the entry
assertion (which lists `'pt'` as valid), but on any input whose reading phase
succeeds the call then fails with `NameError`, since `torch` is never
imported; it never fails with the assertion error. -/
theorem pt_format_name_error {μ : Type} (ck : ChemToolkit μ)
    (lines : List (List Char)) (max_ring_size : ℤ) (npm : Option μ)
    (raw : RawMol) (h : parseLines lines = .ok raw) :
    parse_xyz ck lines max_ring_size npm ("pt".toList) = .error .nameError ∧
    parse_xyz ck lines max_ring_size npm ("pt".toList) ≠
      .error .assertionError := by
  have hfmt : ("pt".toList = "np".toList ∨ "pt".toList = "pt".toList) :=
    Or.inr rfl
  have hnp : ¬("pt".toList = "np".toList ∨ torchImported = true) := by decide
  have key : parse_xyz ck lines max_ring_size npm ("pt".toList) =
      .error .nameError := by
    rw [parse_xyz, if_pos hfmt, h]
    exact if_neg hnp
  refine ⟨key, ?_⟩
  rw [key]
  intro hcon
  injection hcon with h2
  cases h2

/-- Witness for C10: `'pt'` at the concrete sample file. -/
theorem pt_format_name_error_witness :
    parse_xyz trivialChem sampleLines 9 (some 0) ("pt".toList) =
      .error .nameError := by
  have hok : exceptOk (parseLines sampleLines) = true := by decide
  cases h : parseLines sampleLines with
  | ok raw => exact (pt_format_name_error trivialChem sampleLines 9 (some 0) raw h).1
  | error e => rw [h] at hok; simp [exceptOk] at hok
